import Mathlib

/-
  A verification development for the `solvor` LP/MILP core.

  The definitions below are a shallow embedding of `src/src/simplex.py`
  (two-phase simplex: `solve_lp`, `_phase1`, `_phase2`, `_pivot`,
  `_extract`) and `src/solvor/milp.py` (branch and bound:
  `solve_milp`, `_solve_node`, `_most_fractional`, `_compute_gap`).
  `milp.py` imports `solvor.simplex`, a module that is not in the tree;
  `src/src/simplex.py` is the repository's simplex implementation and
  stands in for that dependency here.

  Modelling conventions:
  - Python floats are modelled as exact rationals `ℚ`; `float('inf')` and
    `float('-inf')` are modelled by the three-valued type `Val`.
  - A tableau row (Python `array('d', ...)`) is a `List ℚ`; negative
    indices `row[-1]`, `row[-2]`, `row.insert(-1, x)`, `del row[-2]` are
    translated by explicit length arithmetic.  Out-of-range reads are
    `getD _ 0` (Python would raise; all executions stay in range).
  - The Python `matrix` always consists of the `m` constraint rows followed
    by the objective row `matrix[-1]`; it is modelled by the structure
    `Tab` with fields `rows` (the constraint rows) and `obj`.
  - `basis_set` is maintained by the source exactly in sync with the
    `basis` array (every discard is paired with the removal from `basis`,
    every add with the insertion, and the entries stay pairwise distinct),
    so `j not in basis_set` is modelled as list non-membership `j ∉ basis`.
  - Bounded `for` loops become structural recursion on an explicit
    iteration count; the B&B `while` loop gets an explicit fuel that
    strictly dominates its termination measure (see `milpFuel`).
-/

namespace Solvor

/-- Shared status enum (`solvor/types.py` / `src/simplex.py Status`). -/
inductive Status where
  | optimal
  | feasible
  | infeasible
  | unbounded
  | maxIter
deriving DecidableEq, Repr

/-- An IEEE-style extended value: a finite rational, `+inf` or `-inf`.
`nan` never arises on any path we model. -/
inductive Val where
  | fin (q : ℚ)
  | inf
  | ninf
deriving DecidableEq, Repr

namespace Val

/-- Negation of an extended value. -/
def neg : Val → Val
  | fin q => fin (-q)
  | inf => ninf
  | ninf => inf

/-- Strict comparison of extended values (total order, no nan). -/
def blt : Val → Val → Bool
  | fin a, fin b => decide (a < b)
  | fin _, inf => true
  | ninf, fin _ => true
  | ninf, inf => true
  | _, _ => false

/-- Non-strict comparison, `a ≤ b ↔ ¬ b < a` for this total order. -/
def ble (a b : Val) : Bool := !(blt b a)

/-- Subtract a finite rational from an extended value. -/
def subQ : Val → ℚ → Val
  | fin q, e => fin (q - e)
  | inf, _ => inf
  | ninf, _ => ninf

/-- Difference of extended values (`inf - inf` never arises; mapped to 0). -/
def sub : Val → Val → Val
  | fin a, fin b => fin (a - b)
  | fin _, inf => ninf
  | fin _, ninf => inf
  | inf, fin _ => inf
  | inf, ninf => inf
  | inf, inf => fin 0
  | ninf, fin _ => ninf
  | ninf, inf => ninf
  | ninf, ninf => fin 0

/-- Multiply by a finite rational (used with `sign = ±1` only). -/
def scale (s : ℚ) : Val → Val
  | fin q => fin (s * q)
  | inf => if 0 < s then inf else if s < 0 then ninf else fin 0
  | ninf => if 0 < s then ninf else if s < 0 then inf else fin 0

/-- Divide by a finite rational (used with `sign = ±1` only). -/
def divQ : Val → ℚ → Val
  | fin q, s => fin (q / s)
  | inf, s => if 0 < s then inf else if s < 0 then ninf else fin 0
  | ninf, s => if 0 < s then ninf else if s < 0 then inf else fin 0

/-- Absolute value of an extended value. -/
def absV : Val → Val
  | fin q => fin |q|
  | inf => inf
  | ninf => inf

/-- Division of extended values (only finite/finite arises on modelled paths). -/
def div : Val → Val → Val
  | fin a, fin b => fin (a / b)
  | v, _ => v

/-- The finite part of an extended value (callers only use it on `fin`). -/
def toQ : Val → ℚ
  | fin q => q
  | _ => 0

end Val

/-- A tableau row: coefficient columns followed by the RHS entry. -/
abbrev Row := List ℚ

/-- Python `row[-1]` (the last entry of a row). -/
def la (r : Row) : ℚ := r.getD (r.length - 1) 0

/-- Dot product of a coefficient list with a point, truncating to the
shorter list (`sum(a[j]*x[j])`). -/
def dot (a x : List ℚ) : ℚ := (List.zipWith (· * ·) a x).sum

/-- Python `for j in range(len(pr)): r[j] -= f * pr[j]` — subtract `f`
times `pr` from the first `pr.length` entries of `r`, leaving any tail of
`r` beyond that width untouched. -/
def elimRow (r pr : Row) (f : ℚ) : Row :=
  List.zipWith (fun a p => a - f * p) (r.take pr.length) pr ++ r.drop pr.length

/-- Python `for j in range(k): r[j] *= inv`. -/
def scaleRow (r : Row) (inv : ℚ) (k : ℕ) : Row :=
  (r.take k).map (· * inv) ++ r.drop k

/-- The tableau: `m` constraint rows plus the objective row `matrix[-1]`. -/
structure Tab where
  rows : List Row
  obj : Row
deriving DecidableEq, Repr

/-- Python `len(matrix[0])`: the first constraint row's length, or the
objective row's length when `m = 0` (then `matrix[0]` is the objective). -/
def width (t : Tab) : ℕ :=
  match t.rows with
  | [] => t.obj.length
  | r :: _ => r.length

/-- The entering-variable scan of `_phase2` (lines 145-148): the first
index `j` (scanning `count` indices starting at `j0`) that is non-basic
and has objective entry `< -eps`. -/
def scanEnter (obj : Row) (basis : List ℕ) (eps : ℚ) : ℕ → ℕ → Option ℕ
  | 0, _ => none
  | count + 1, j =>
    if j ∉ basis ∧ obj.getD j 0 < -eps then some j
    else scanEnter obj basis eps count (j + 1)

/-- `_phase2`'s entering-column choice: scan `j in range(n_cols - 1)`. -/
def chooseEnter (t : Tab) (basis : List ℕ) (eps : ℚ) : Option ℕ :=
  scanEnter t.obj basis eps (width t - 1) 0

/-- The leaving-row scan of `_phase2` (lines 153-162), threading the pair
`(leave, min_ratio)` with `None` standing for `-1` / `float('inf')`. -/
def scanLeave (rows : List Row) (basis : List ℕ) (col : ℕ) (eps : ℚ) :
    ℕ → ℕ → Option ℕ × Option ℚ → Option ℕ × Option ℚ
  | 0, _, st => st
  | count + 1, i, st =>
    let r := rows.getD i []
    let e := r.getD col 0
    let st' :=
      if eps < e then
        let ratio := la r / e
        match st with
        | (_, none) =>
          -- min_ratio = inf, so `ratio < min_ratio - eps` holds
          (some i, some ratio)
        | (leave, some m0) =>
          if ratio < m0 - eps then (some i, some ratio)
          else if |ratio - m0| ≤ eps then
            match leave with
            | none => (some i, some m0)
            | some l0 =>
              if basis.getD i 0 < basis.getD l0 0 then (some i, some m0)
              else (leave, some m0)
          else (leave, some m0)
      else st
    scanLeave rows basis col eps count (i + 1) st'

/-- `_phase2`'s leaving-row choice over rows `0..m-1`. -/
def chooseLeave (t : Tab) (basis : List ℕ) (col : ℕ) (eps : ℚ) (m : ℕ) :
    Option ℕ :=
  (scanLeave t.rows basis col eps m 0 (none, none)).1

/-- `_pivot(matrix, m, row, col, eps)`: scale the pivot row by
`1 / matrix[row][col]`, then for every other row (objective included) with
`abs(row[col]) > eps` subtract `row[col]` times the scaled pivot row from
its first `n_cols` entries. -/
def pivotTab (t : Tab) (row col : ℕ) (eps : ℚ) : Tab :=
  let nCols := width t
  let pr0 := t.rows.getD row []
  let inv := 1 / pr0.getD col 0
  let pr := scaleRow pr0 inv nCols
  let rows := (List.range t.rows.length).map (fun i =>
    if i = row then pr
    else
      let r := t.rows.getD i []
      let f := r.getD col 0
      if eps < |f| then elimRow r pr f else r)
  let ob :=
    let f := t.obj.getD col 0
    if eps < |f| then elimRow t.obj pr f else t.obj
  ⟨rows, ob⟩

/-- One iteration of the `_phase2` loop: pick the entering column (else
`OPTIMAL`), pick the leaving row (else `UNBOUNDED`), otherwise pivot and
update the basis. -/
def phase2Step (t : Tab) (basis : List ℕ) (m : ℕ) (eps : ℚ) :
    Status ⊕ (Tab × List ℕ) :=
  match chooseEnter t basis eps with
  | none => Sum.inl Status.optimal
  | some enter =>
    match chooseLeave t basis enter eps m with
    | none => Sum.inl Status.unbounded
    | some leave =>
      Sum.inr (pivotTab t leave enter eps, basis.set leave enter)

/-- `_phase2(matrix, basis, basis_set, m, eps, max_iter)`: iterate
`phase2Step` at most `max_iter` times; returns the status, the iteration
count (`max_iter` itself when the loop runs out) and the final state. -/
def phase2 (m : ℕ) (eps : ℚ) :
    ℕ → Tab → List ℕ → Status × ℕ × Tab × List ℕ
  | 0, t, basis => (Status.maxIter, 0, t, basis)
  | fuel + 1, t, basis =>
    match phase2Step t basis m eps with
    | Sum.inl s => (s, 0, t, basis)
    | Sum.inr (t', b') =>
      let r := phase2 m eps fuel t' b'
      (r.1, r.2.1 + 1, r.2.2)

/-- Python `row.insert(-1, 0.0)`: insert a zero right before the RHS. -/
def insBeforeLast (r : Row) : Row := r.insertIdx (r.length - 1) 0

/-- `_phase1` lines 86-100, one value of `i`: if `matrix[i][-1] < -eps`,
negate the first `nCols0` entries of row `i`, insert a fresh column before
the RHS of every row, put a `1` in that column on row `i`, and make the
artificial variable basic in row `i`. -/
def phase1AddArt (nCols0 nTotal : ℕ) (eps : ℚ)
    (st : Tab × List ℕ × List ℕ) (i : ℕ) : Tab × List ℕ × List ℕ :=
  let t := st.1
  let basis := st.2.1
  let arts := st.2.2
  let r := t.rows.getD i []
  if la r < -eps then
    let rneg := (r.take nCols0).map (fun x => -x) ++ r.drop nCols0
    let artCol := nTotal + arts.length
    let rows1 := (t.rows.set i rneg).map insBeforeLast
    let ob1 := insBeforeLast t.obj
    let r1 := rows1.getD i []
    let rows2 := rows1.set i (r1.set (r1.length - 2) 1)
    (⟨rows2, ob1⟩, basis.set i artCol, arts ++ [artCol])
  else st

/-- Python `del row[-2]` iterated `k` times (dropping the `k` artificial
columns sitting right before the RHS). -/
def delArt : ℕ → Row → Row
  | 0, r => r
  | k + 1, r => delArt k (r.eraseIdx (r.length - 2))

/-- `_phase1(matrix, basis, basis_set, m, n, eps, max_iter)`. -/
def phase1 (t : Tab) (basis : List ℕ) (m n : ℕ) (eps : ℚ) (maxIter : ℕ) :
    Status × ℕ × Tab × List ℕ :=
  let nCols0 := width t
  let nTotal := n + m
  let st1 := (List.range m).foldl (phase1AddArt nCols0 nTotal eps)
    (t, basis, [])
  let t1 := st1.1
  let basis1 := st1.2.1
  let arts := st1.2.2
  if arts = [] then (Status.optimal, 0, t1, basis1)
  else
    let nCols1 := width t1
    let origObj := t1.obj
    let aux0 := arts.foldl (fun (o : Row) c => o.set c 1)
      (List.replicate nCols1 0)
    let aux := (List.range m).foldl (fun (o : Row) i =>
      if basis1.getD i 0 ∈ arts then elimRow o (t1.rows.getD i []) 1 else o)
      aux0
    let r2 := phase2 m eps maxIter ⟨t1.rows, aux⟩ basis1
    let iters := r2.2.1
    let t2 := r2.2.2.1
    let basis2 := r2.2.2.2
    if la t2.obj < -eps then (Status.infeasible, iters, t2, basis2)
    else
      -- drop the artificial columns from the matrix rows (the aux
      -- objective row is dropped wholesale: it is replaced by the saved
      -- original objective row, which still carries the inserted columns)
      let rows3 := t2.rows.map (delArt arts.length)
      let t3 : Tab := ⟨rows3, origObj⟩
      let nCols2 := width t3
      let objF := (List.range m).foldl (fun (o : Row) i =>
        let var := basis2.getD i 0
        if var < nCols2 - 1 then
          let cost := o.getD var 0
          if eps < |cost| then elimRow o (t3.rows.getD i []) cost else o
        else o) origObj
      (Status.optimal, iters, ⟨rows3, objF⟩, basis2)

/-- The LP result record (`Result` namedtuple). -/
structure LPResult where
  solution : List ℚ
  objective : Val
  iterations : ℕ
  evaluations : ℕ
  status : Status
deriving DecidableEq, Repr

/-- `_extract(matrix, basis, m, n, status, iters, minimize)`. -/
def extract (t : Tab) (basis : List ℕ) (m n : ℕ) (st : Status)
    (iters : ℕ) (minimize : Bool) : LPResult :=
  let sol := (List.range m).foldl (fun (s : List ℚ) i =>
    let bi := basis.getD i 0
    if bi < n then s.set bi (la (t.rows.getD i [])) else s)
    (List.replicate n 0)
  let ob := -(la t.obj)
  let ob := if minimize then ob else -ob
  ⟨sol, Val.fin ob, iters, iters, st⟩

/-- The initial constraint rows of `solve_lp` (lines 55-61):
`A[i]` followed by `m` slack columns with a `1` at column `n + i`,
followed by the RHS `b[i]`. -/
def initRows (n m : ℕ) (A : List Row) (b : List ℚ) : List Row :=
  (List.range m).map (fun i =>
    ((A.getD i [] ++ List.replicate m 0).set (n + i) 1) ++ [b.getD i 0])

/-- The pipeline of `solve_lp` after `weights` is fixed, up to the final
`Result` construction: builds the all-slack tableau, runs Phase 1 when
some `b[i] < -eps`, then budgets the remaining iterations into Phase 2.
The boolean flag records the early `INFEASIBLE` return of lines 72-73
(Phase 1 did not report `OPTIMAL`); otherwise the final status, total
iteration count and final tableau/basis are those handed to `_extract`.
`minimize` plays no role here (it is consumed by `weights` and
`_extract` only). -/
def lpRun (n : ℕ) (weights : List ℚ) (A : List Row) (b : List ℚ)
    (eps : ℚ) (maxIter : ℕ) : Bool × Status × ℕ × Tab × List ℕ :=
  let m := b.length
  let rows := initRows n m A b
  let t : Tab := ⟨rows, weights ++ List.replicate (m + 1) 0⟩
  let basis := (List.range m).map (n + ·)
  if (List.range m).any (fun i => decide (la (rows.getD i []) < -eps)) then
    let r1 := phase1 t basis m n eps maxIter
    if r1.1 ≠ Status.optimal then (true, r1)
    else
      let r2 := phase2 m eps (maxIter - r1.2.1) r1.2.2.1 r1.2.2.2
      (false, r2.1, r1.2.1 + r2.2.1, r2.2.2)
  else
    let r2 := phase2 m eps maxIter t basis
    (false, r2)

/-- The body of `solve_lp` after `weights` is fixed: the flagged runs
return the line-73 `INFEASIBLE` result, the rest go through `_extract`. -/
def lpMain (n : ℕ) (weights : List ℚ) (A : List Row) (b : List ℚ)
    (minimize : Bool) (eps : ℚ) (maxIter : ℕ) : LPResult :=
  let r := lpRun n weights A b eps maxIter
  if r.1 then
    ⟨List.replicate n 0, Val.inf, r.2.2.1, r.2.2.1, Status.infeasible⟩
  else
    extract r.2.2.2.1 r.2.2.2.2 b.length n r.2.1 r.2.2.1 minimize

/-- `solve_lp(c, A, b, minimize, eps, max_iter)` of `src/src/simplex.py`. -/
def solve_lp (c : List ℚ) (A : List Row) (b : List ℚ)
    (minimize : Bool := true) (eps : ℚ := 1 / 10 ^ 10)
    (maxIter : ℕ := 100000) : LPResult :=
  lpMain c.length (if minimize then c else c.map (fun x => -x)) A b
    minimize eps maxIter

/-- Iterate `phase2Step` a fixed number of times, stopping at an exit
(used to inspect intermediate Phase 2 tableaux). -/
def stepN (m : ℕ) (eps : ℚ) : ℕ → Tab × List ℕ → Tab × List ℕ
  | 0, s => s
  | k + 1, s =>
    match phase2Step s.1 s.2 m eps with
    | Sum.inl _ => s
    | Sum.inr s' => stepN m eps k s'

/- ===== `src/solvor/milp.py` ===== -/

/-- The MILP result record (`solution` is `None` when no incumbent). -/
structure MilpResult where
  solution : Option (List ℚ)
  objective : Val
  iterations : ℕ
  evaluations : ℕ
  status : Status
deriving DecidableEq, Repr

/-- The B&B `Node` namedtuple: relaxation bound, per-variable lower and
upper bounds, and depth. -/
structure Node where
  bound : Val
  lower : List ℚ
  upper : List Val
  depth : ℕ
deriving DecidableEq, Repr

/-- A heap entry `(bound, counter, node)`. -/
abbrev Entry := Val × ℕ × Node

/-- Heap order on entries: lexicographic on `(bound, counter)` (counters
are pairwise distinct in every run, so the node field never decides). -/
def entryLe (e f : Entry) : Bool :=
  if Val.blt e.1 f.1 then true
  else if e.1 = f.1 then decide (e.2.1 ≤ f.2.1)
  else false

/-- The least entry among `e :: rest` in the heap order. -/
def minEntry : Entry → List Entry → Entry
  | e, [] => e
  | e, f :: rest => minEntry (if entryLe e f then e else f) rest

/-- `heappop`: remove and return the least entry. -/
def popMin (l : List Entry) : Option (Entry × List Entry) :=
  match l with
  | [] => none
  | e :: rest =>
    let b := minEntry e rest
    some (b, l.erase b)

/-- `_solve_node(c, A, b, lower, upper, minimize, eps, max_iter)`: append
one row `-x_j <= -lower[j]` for each `lower[j] > eps` and one row
`x_j <= upper[j]` for each finite `upper[j]` (in index order, lower row
before upper row), then call `solve_lp`. -/
def solveNode (c : List ℚ) (A : List Row) (b : List ℚ)
    (lower : List ℚ) (upper : List Val) (minimize : Bool) (eps : ℚ)
    (maxIter : ℕ) : LPResult :=
  let n := c.length
  let rowsRhs := (List.range n).foldl
    (fun (acc : List Row × List ℚ) j =>
      let acc :=
        if eps < lower.getD j 0 then
          (acc.1 ++ [(List.replicate n (0 : ℚ)).set j (-1)],
           acc.2 ++ [-(lower.getD j 0)])
        else acc
      if Val.blt (upper.getD j Val.inf) Val.inf then
        (acc.1 ++ [(List.replicate n (0 : ℚ)).set j 1],
         acc.2 ++ [(upper.getD j Val.inf).toQ])
      else acc)
    ([], [])
  if rowsRhs.1 = [] then solve_lp c A b minimize eps maxIter
  else solve_lp c (A ++ rowsRhs.1) (b ++ rowsRhs.2) minimize eps maxIter

/-- Insert into an ascending list of indices. -/
def insertAsc (j : ℕ) : List ℕ → List ℕ
  | [] => [j]
  | k :: ks => if j ≤ k then j :: k :: ks else k :: insertAsc j ks

/-- Sort a list of indices ascending (insertion sort). -/
def sortAsc (l : List ℕ) : List ℕ := l.foldr insertAsc []

/-- Python `abs(val - round(val))`; `round` ties do not matter since both
tie-breaking conventions give the same distance to the nearest integer. -/
def fracOf (q : ℚ) : ℚ := |q - round q|

/-- `_most_fractional(solution, int_set, eps)`: the integer-constrained
index with the largest fractional part `> eps` (first seen wins ties).
The Python `for j in int_set` iterates a set of small naturals, which
CPython enumerates in increasing order; `intList` is passed sorted. -/
def mostFractional (sol : List ℚ) (intList : List ℕ) (eps : ℚ) : Option ℕ :=
  (intList.foldl (fun (best : Option ℕ × ℚ) j =>
    let f := fracOf (sol.getD j 0)
    if eps < f ∧ best.2 < f then (some j, f) else best) (none, 0)).1

/-- `_compute_gap(best_obj, bound, minimize)` (the `minimize` argument is
unused by the source as well). -/
def computeGap (bestObj bound : Val) (_minimize : Bool) : Val :=
  if Val.blt (Val.absV bestObj) (Val.fin (1 / 10 ^ 10)) then
    Val.absV (Val.sub bestObj bound)
  else
    Val.div (Val.absV (Val.sub bestObj bound)) (Val.absV bestObj)

/-- The result built after the `while` loop of `solve_milp` exits
(lines 133-137): no incumbent means `INFEASIBLE`; otherwise the incumbent
with `OPTIMAL` when the queue is empty and `FEASIBLE` when not. -/
def milpTerminal (minimize : Bool) (best : Option (List ℚ)) (bestObj : Val)
    (explored totalIters : ℕ) (tree : List Entry) : MilpResult :=
  match best with
  | none => ⟨none, if minimize then Val.inf else Val.ninf,
             explored, totalIters, Status.infeasible⟩
  | some s => ⟨some s, bestObj, explored, totalIters,
               if tree = [] then Status.optimal else Status.feasible⟩

/-- The `while tree and nodes_explored < max_nodes` loop of `solve_milp`
(lines 90-131), with explicit fuel.  Every recursive call strictly
decreases `3 * (maxNodes - explored) + tree.length`, so any fuel above
that measure computes the loop exactly (see `milpLoop_fuel_adequate`). -/
def milpLoop (c : List ℚ) (A : List Row) (b : List ℚ) (intList : List ℕ)
    (minimize : Bool) (eps : ℚ) (maxIter maxNodes : ℕ) (gapTol : ℚ) :
    ℕ → List Entry → Option (List ℚ) → Val → ℕ → ℕ → ℕ → MilpResult
  | 0, tree, best, bestObj, explored, totalIters, _ =>
    milpTerminal minimize best bestObj explored totalIters tree
  | fuel + 1, tree, best, bestObj, explored, totalIters, counter =>
    if tree = [] ∨ ¬ explored < maxNodes then
      milpTerminal minimize best bestObj explored totalIters tree
    else
      match popMin tree with
      | none => milpTerminal minimize best bestObj explored totalIters tree
      | some ((nb, _, node), tree') =>
        let sign : ℚ := if minimize then 1 else -1
        if best.isSome ∧
            Val.ble (Val.subQ (Val.scale sign bestObj) eps) nb = true then
          milpLoop c A b intList minimize eps maxIter maxNodes gapTol
            fuel tree' best bestObj explored totalIters counter
        else
          let result := solveNode c A b node.lower node.upper minimize eps
            maxIter
          let totalIters' := totalIters + result.iterations
          let explored' := explored + 1
          if result.status ≠ Status.optimal then
            milpLoop c A b intList minimize eps maxIter maxNodes gapTol
              fuel tree' best bestObj explored' totalIters' counter
          else if best.isSome ∧
              Val.ble (Val.subQ (Val.scale sign bestObj) eps)
                (Val.scale sign result.objective) = true then
            milpLoop c A b intList minimize eps maxIter maxNodes gapTol
              fuel tree' best bestObj explored' totalIters' counter
          else
            match mostFractional result.solution intList eps with
            | none =>
              if Val.blt (Val.scale sign result.objective)
                  (Val.scale sign bestObj) = true then
                let best' := some result.solution
                let bestObj' := result.objective
                let gap := computeGap bestObj'
                  (if nb ≠ Val.fin 0 then Val.divQ nb sign else Val.fin 0)
                  minimize
                if Val.blt gap (Val.fin gapTol) = true then
                  ⟨best', bestObj', explored', totalIters', Status.optimal⟩
                else
                  milpLoop c A b intList minimize eps maxIter maxNodes gapTol
                    fuel tree' best' bestObj' explored' totalIters' counter
              else
                milpLoop c A b intList minimize eps maxIter maxNodes gapTol
                  fuel tree' best bestObj explored' totalIters' counter
            | some fracVar =>
              let v := result.solution.getD fracVar 0
              let childBound := Val.scale sign result.objective
              let left : Entry := (childBound, counter,
                ⟨childBound, node.lower,
                 node.upper.set fracVar (Val.fin (Int.floor v : ℤ)),
                 node.depth + 1⟩)
              let right : Entry := (childBound, counter + 1,
                ⟨childBound, node.lower.set fracVar (Int.ceil v : ℤ),
                 node.upper, node.depth + 1⟩)
              milpLoop c A b intList minimize eps maxIter maxNodes gapTol
                fuel (tree' ++ [left, right]) best bestObj explored'
                totalIters' (counter + 2)

/-- Fuel that strictly dominates the loop measure from the initial state. -/
def milpFuel (maxNodes treeLen : ℕ) : ℕ := 3 * maxNodes + treeLen + 1

/-- `solve_milp(c, A, b, integers, minimize, eps, max_iter, max_nodes,
gap_tol)` of `src/solvor/milp.py`. -/
def solve_milp (c : List ℚ) (A : List Row) (b : List ℚ)
    (integers : List ℕ) (minimize : Bool := true)
    (eps : ℚ := 1 / 10 ^ 6) (maxIter : ℕ := 10000)
    (maxNodes : ℕ := 100000) (gapTol : ℚ := 1 / 10 ^ 6) : MilpResult :=
  let n := c.length
  let intList := sortAsc integers.dedup
  let lower := List.replicate n (0 : ℚ)
  let upper := List.replicate n Val.inf
  let root := solveNode c A b lower upper minimize eps maxIter
  let totalIters := root.iterations
  if root.status = Status.infeasible then
    ⟨none, if minimize then Val.inf else Val.ninf, 0, totalIters,
     Status.infeasible⟩
  else if root.status = Status.unbounded then
    ⟨none, if minimize then Val.ninf else Val.inf, 0, totalIters,
     Status.unbounded⟩
  else
    match mostFractional root.solution intList eps with
    | none => ⟨some root.solution, root.objective, 1, totalIters,
               Status.optimal⟩
    | some _ =>
      let sign : ℚ := if minimize then 1 else -1
      let rootBound := Val.scale sign root.objective
      let tree : List Entry := [(rootBound, 0, ⟨rootBound, lower, upper, 0⟩)]
      milpLoop c A b intList minimize eps maxIter maxNodes gapTol
        (milpFuel maxNodes tree.length) tree none
        (if minimize then Val.inf else Val.ninf) 0 totalIters 1

/- ===== Specification-side definitions =====

The following definitions are written from the specification's words, not
from the source; they exist to be compared with the source-translated
definitions above. -/

/-- The pivot-column entry of constraint row `i`. -/
def entryAt (t : Tab) (col i : ℕ) : ℚ := (t.rows.getD i []).getD col 0

/-- The ratio `RHS / pivotColEntry` of constraint row `i`. -/
def ratioAt (t : Tab) (col i : ℕ) : ℚ :=
  la (t.rows.getD i []) / (t.rows.getD i []).getD col 0

/-- Modelled from the spec (section 4.3, step 2): among rows with positive
pivot-column entry (`> eps`), pick the minimum ratio `RHS / pivotColEntry`;
ties broken by the lowest basis-variable index. -/
def leaveSpec (t : Tab) (basis : List ℕ) (col : ℕ) (eps : ℚ) (m : ℕ) :
    Option ℕ :=
  ((List.range m).filter (fun i => decide (eps < entryAt t col i))).foldl
    (fun best i =>
      match best with
      | none => some i
      | some b0 =>
        if ratioAt t col i < ratioAt t col b0 then some i
        else if ratioAt t col i = ratioAt t col b0 ∧
            basis.getD i 0 < basis.getD b0 0 then some i
        else some b0) none

/-- The constraint rows read as linear equations: point `x` satisfies row
`r` when the coefficient columns dotted with `x` equal the RHS. -/
def satRows (rows : List Row) (x : List ℚ) : Prop :=
  ∀ i < rows.length,
    dot ((rows.getD i []).dropLast) x = la (rows.getD i [])

instance (rows : List Row) (x : List ℚ) : Decidable (satRows rows x) := by
  unfold satRows; infer_instance

/-- The statuses the B&B loop can end in. -/
def loopStatus (s : Status) : Prop :=
  s = Status.optimal ∨ s = Status.feasible ∨ s = Status.infeasible

/-- The invariant the leaving-row scan maintains after its first `bound`
rows: either nothing qualified yet, or `(leave, min_ratio)` are both set,
`leave` is a qualified row whose ratio is within `eps` of `min_ratio`,
and `min_ratio` is within `eps` above every qualified ratio seen. -/
def leaveInv (t : Tab) (col : ℕ) (eps : ℚ) (bound : ℕ) :
    Option ℕ × Option ℚ → Prop
  | (none, none) => ∀ i < bound, ¬ eps < entryAt t col i
  | (some l, some m0) => l < bound ∧ eps < entryAt t col l ∧
      ratioAt t col l ≤ m0 + eps ∧
      ∀ i < bound, eps < entryAt t col i → m0 ≤ ratioAt t col i + eps
  | _ => False

/- ===== Helper lemmas ===== -/

/- Core Lean marks the arithmetic on `Rat` `@[irreducible]`; lift that to
`semireducible` locally so concrete runs of the embedding reduce by `rfl`
(the kernel is unaffected either way). -/
attribute [local semireducible] Rat.mul Rat.add Rat.sub Rat.inv

/-- The Phase 2 step exits only with `OPTIMAL` or `UNBOUNDED`. -/
lemma phase2Step_inl (t : Tab) (basis : List ℕ) (m : ℕ) (eps : ℚ)
    (s : Status) (h : phase2Step t basis m eps = Sum.inl s) :
    s = Status.optimal ∨ s = Status.unbounded := by
  unfold phase2Step at h
  split at h
  · exact Or.inl (Sum.inl.inj h).symm
  · split at h
    · exact Or.inr (Sum.inl.inj h).symm
    · exact absurd h (by simp)

/-- `_phase2` never reports `INFEASIBLE`. -/
lemma phase2_ne_infeasible (m : ℕ) (eps : ℚ) :
    ∀ fuel t basis, (phase2 m eps fuel t basis).1 ≠ Status.infeasible := by
  intro fuel
  induction fuel with
  | zero => intro t basis; simp [phase2]
  | succ f ih =>
    intro t basis
    simp only [phase2]
    cases hs : phase2Step t basis m eps with
    | inl s =>
      rcases phase2Step_inl t basis m eps s hs with h | h <;> simp [h]
    | inr p => simpa using ih p.1 p.2

/-- `_extract` passes the status through unchanged. -/
lemma extract_status (t : Tab) (basis : List ℕ) (m n : ℕ) (st : Status)
    (iters : ℕ) (mz : Bool) : (extract t basis m n st iters mz).status = st :=
  rfl

/-- The objective reported by `_extract` for a maximization is the
negation of the one reported for a minimization of the same tableau. -/
lemma extract_obj_neg (t : Tab) (basis : List ℕ) (m n : ℕ) (st : Status)
    (iters : ℕ) :
    (extract t basis m n st iters false).objective =
      Val.neg ((extract t basis m n st iters true).objective) := by
  simp [extract, Val.neg]

/-- An unflagged `lpRun` carries a Phase 2 status, never `INFEASIBLE`. -/
lemma lpRun_false_status (n : ℕ) (w : List ℚ) (A : List Row) (b : List ℚ)
    (eps : ℚ) (k : ℕ) :
    ∀ res, lpRun n w A b eps k = res → res.1 = false →
      res.2.1 ≠ Status.infeasible := by
  intro res hres hflag
  simp only [lpRun] at hres
  split at hres
  · split at hres
    · subst hres; simp at hflag
    · subst hres; simpa using phase2_ne_infeasible _ _ _ _ _
  · subst hres; simpa using phase2_ne_infeasible _ _ _ _ _

/-- For a maximization run the `lpMain` objective is the negation of the
minimization run on the same weights (the pipeline `lpRun` does not
depend on `minimize`), provided the flagged `INFEASIBLE` early return —
whose objective is `+inf` for either flag — is not taken. -/
lemma lpMain_obj_neg (n : ℕ) (w : List ℚ) (A : List Row) (b : List ℚ)
    (eps : ℚ) (k : ℕ)
    (h : (lpMain n w A b false eps k).status ≠ Status.infeasible) :
    (lpMain n w A b false eps k).objective =
      Val.neg ((lpMain n w A b true eps k).objective) := by
  unfold lpMain at h ⊢
  cases hflag : (lpRun n w A b eps k).1 with
  | true => simp only [hflag, if_true] at h; exact absurd rfl h
  | false =>
    simp only [hflag, Bool.false_eq_true, if_false]
    exact extract_obj_neg _ _ _ _ _ _

/-- The after-loop result carries one of the loop statuses. -/
lemma minEntry_mem : ∀ (e : Entry) (rest : List Entry),
    minEntry e rest ∈ e :: rest := by
  intro e rest
  induction rest generalizing e with
  | nil => simp [minEntry]
  | cons f rs ih =>
    unfold minEntry
    rcases List.mem_cons.mp (ih (if entryLe e f then e else f)) with h | h
    · rw [h]
      by_cases hef : entryLe e f
      · simp [hef]
      · simp [hef]
    · exact List.mem_cons_of_mem _ (List.mem_cons_of_mem _ h)

lemma popMin_length (l : List Entry) (e : Entry) (l' : List Entry)
    (h : popMin l = some (e, l')) : l'.length + 1 = l.length := by
  cases l with
  | nil => simp [popMin] at h
  | cons a rest =>
    simp only [popMin, Option.some.injEq, Prod.mk.injEq] at h
    rw [← h.2, List.length_erase_of_mem (minEntry_mem a rest)]
    simp

/-- The B&B loop's value does not depend on the fuel, as long as the fuel
exceeds the termination measure `3·(max_nodes − explored) + |queue|`
(every recursive call strictly decreases that measure, so the fuel-out
branch is never reached).  In particular `solve_milp`'s choice
`milpFuel` computes the unbounded loop exactly. -/
lemma milpLoop_fuel_adequate (c : List ℚ) (A : List Row) (b : List ℚ)
    (il : List ℕ) (mz : Bool) (eps : ℚ) (mi mn : ℕ) (gt : ℚ) :
    ∀ (f1 f2 : ℕ) (tree : List Entry) (best : Option (List ℚ)) (bo : Val)
      (e ti cnt : ℕ),
      3 * (mn - e) + tree.length < f1 →
      3 * (mn - e) + tree.length < f2 →
      milpLoop c A b il mz eps mi mn gt f1 tree best bo e ti cnt =
        milpLoop c A b il mz eps mi mn gt f2 tree best bo e ti cnt := by
  intro f1
  induction f1 with
  | zero => intro f2 tree best bo e ti cnt h1 h2; omega
  | succ k ih =>
    intro f2 tree best bo e ti cnt h1 h2
    cases f2 with
    | zero => omega
    | succ j =>
      simp only [milpLoop]
      by_cases hterm : tree = [] ∨ ¬ e < mn
      · rw [if_pos hterm, if_pos hterm]
      · rw [if_neg hterm, if_neg hterm]
        push_neg at hterm
        obtain ⟨htree, he⟩ := hterm
        cases hpop : popMin tree with
        | none => rfl
        | some p =>
          obtain ⟨⟨nb, cntE, node⟩, tree'⟩ := p
          have hlen := popMin_length tree _ _ hpop
          dsimp only
          repeat' split
          all_goals
            first
              | rfl
              | exact ih j tree' _ _ e _ _ (by omega) (by omega)
              | exact ih j tree' _ _ (e + 1) _ _ (by omega) (by omega)
              | exact ih j (tree' ++ [_, _]) _ _ (e + 1) _ _
                  (by simp only [List.length_append, List.length_cons,
                        List.length_nil]; omega)
                  (by simp only [List.length_append, List.length_cons,
                        List.length_nil]; omega)

lemma milpTerminal_status_ok (mz : Bool) (best : Option (List ℚ))
    (bo : Val) (e ti : ℕ) (tree : List Entry) :
    loopStatus (milpTerminal mz best bo e ti tree).status := by
  cases best with
  | none => exact Or.inr (Or.inr rfl)
  | some s =>
    by_cases ht : tree = [] <;> simp [milpTerminal, loopStatus, ht]

/-- Every result of the B&B loop carries one of `OPTIMAL`, `FEASIBLE`,
`INFEASIBLE`. -/
lemma milpLoop_status_ok (c : List ℚ) (A : List Row) (b : List ℚ)
    (il : List ℕ) (mz : Bool) (eps : ℚ) (mi mn : ℕ) (gt : ℚ) :
    ∀ fuel tree best bo e ti cnt,
      loopStatus
        (milpLoop c A b il mz eps mi mn gt fuel tree best bo e ti cnt).status
    := by
  intro fuel
  induction fuel with
  | zero => intro tree best bo e ti cnt; exact milpTerminal_status_ok _ _ _ _ _ _
  | succ f ih =>
    intro tree best bo e ti cnt
    simp only [milpLoop]
    repeat' split
    all_goals
      first
        | exact milpTerminal_status_ok _ _ _ _ _ _
        | exact ih _ _ _ _ _ _
        | exact Or.inl rfl

/-- If the B&B loop returns no solution, its status is `INFEASIBLE`. -/
lemma milpLoop_none_infeasible (c : List ℚ) (A : List Row) (b : List ℚ)
    (il : List ℕ) (mz : Bool) (eps : ℚ) (mi mn : ℕ) (gt : ℚ) :
    ∀ fuel tree best bo e ti cnt,
      (milpLoop c A b il mz eps mi mn gt fuel tree best bo e ti cnt).solution
          = none →
        (milpLoop c A b il mz eps mi mn gt fuel tree best bo e ti
            cnt).status = Status.infeasible := by
  have hterm : ∀ (mzb : Bool) best bo e ti tree,
      (milpTerminal mzb best bo e ti tree).solution = none →
        (milpTerminal mzb best bo e ti tree).status = Status.infeasible := by
    intro mzb best bo e ti tree h
    cases best with
    | none => rfl
    | some s => exact absurd h (by simp [milpTerminal])
  intro fuel
  induction fuel with
  | zero => intro tree best bo e ti cnt; exact hterm _ _ _ _ _ _
  | succ f ih =>
    intro tree best bo e ti cnt
    simp only [milpLoop]
    repeat' split
    all_goals
      first
        | exact hterm _ _ _ _ _ _
        | exact ih _ _ _ _ _ _
        | (intro h; exact absurd h (by simp))

/- ===== List indexing lemmas ===== -/

lemma getD_zipWith (g : ℚ → ℚ → ℚ) :
    ∀ (l₁ l₂ : List ℚ) (i : ℕ), i < l₁.length → i < l₂.length →
      (List.zipWith g l₁ l₂).getD i 0 = g (l₁.getD i 0) (l₂.getD i 0) := by
  intro l₁
  induction l₁ with
  | nil => intro l₂ i h; simp at h
  | cons a t ih =>
    intro l₂ i h1 h2
    cases l₂ with
    | nil => simp at h2
    | cons b s =>
      cases i with
      | zero => rfl
      | succ j =>
        simpa using ih s j (by simpa using h1) (by simpa using h2)

lemma getD_append_left :
    ∀ (l₁ l₂ : List ℚ) (i : ℕ), i < l₁.length →
      (l₁ ++ l₂).getD i 0 = l₁.getD i 0 := by
  intro l₁
  induction l₁ with
  | nil => intro l₂ i h; simp at h
  | cons a t ih =>
    intro l₂ i h
    cases i with
    | zero => rfl
    | succ j => simpa using ih l₂ j (by simpa using h)

lemma getD_take :
    ∀ (l : List ℚ) (k i : ℕ), i < k → (l.take k).getD i 0 = l.getD i 0 := by
  intro l
  induction l with
  | nil => intro k i _; simp
  | cons a t ih =>
    intro k i hik
    cases k with
    | zero => simp at hik
    | succ k0 =>
      cases i with
      | zero => rfl
      | succ j => simpa using ih k0 j (by omega)

lemma getD_map_mul (r : Row) (c : ℚ) (i : ℕ) (h : i < r.length) :
    (r.map (· * c)).getD i 0 = r.getD i 0 * c := by
  induction r generalizing i with
  | nil => simp at h
  | cons a t ih =>
    cases i with
    | zero => rfl
    | succ j => simpa using ih j (by simpa using h)

lemma getD_range_map {α : Type} [Inhabited α] (g : ℕ → α) (n i : ℕ)
    (h : i < n) (d : α) : ((List.range n).map g).getD i d = g i := by
  rw [List.getD_eq_getElem _ _ (by simpa using h)]
  simp

/- ===== Row algebra for the pivot invariant ===== -/

/-- A row read as a linear equation at the point `x`. -/
def rowEq (r : Row) (x : List ℚ) : Prop := dot r.dropLast x = la r

lemma scaleRow_all (r : Row) (inv : ℚ) : scaleRow r inv r.length =
    r.map (· * inv) := by
  simp [scaleRow]

lemma elimRow_all (r pr : Row) (f : ℚ) (h : r.length = pr.length) :
    elimRow r pr f = List.zipWith (fun a p => a - f * p) r pr := by
  simp [elimRow, ← h]

lemma elimRow_getD (r pr : Row) (f : ℚ) (col : ℕ) (h1 : col < pr.length)
    (h2 : col < r.length) :
    (elimRow r pr f).getD col 0 = r.getD col 0 - f * pr.getD col 0 := by
  unfold elimRow
  rw [getD_append_left _ _ _ (by simp [List.length_take]; omega)]
  rw [getD_zipWith _ _ _ _ (by simp [List.length_take]; omega) h1]
  rw [getD_take _ _ _ h1]

lemma dropLast_zipWith (g : ℚ → ℚ → ℚ) :
    ∀ (l₁ l₂ : List ℚ), l₁.length = l₂.length →
      (List.zipWith g l₁ l₂).dropLast =
        List.zipWith g l₁.dropLast l₂.dropLast := by
  intro l₁
  induction l₁ with
  | nil => intro l₂ _; simp
  | cons a t ih =>
    intro l₂ h
    cases l₂ with
    | nil => simp at h
    | cons b s =>
      cases t with
      | nil =>
        cases s with
        | nil => simp
        | cons c u => simp at h
      | cons a2 t2 =>
        cases s with
        | nil => simp at h
        | cons b2 s2 =>
          have := ih (b2 :: s2) (by simpa using h)
          simp only [List.zipWith] at this ⊢
          simp [this]

lemma dot_map_mul (c : ℚ) : ∀ (r x : List ℚ),
    dot (r.map (· * c)) x = c * dot r x := by
  intro r
  induction r with
  | nil => intro x; simp [dot]
  | cons a t ih =>
    intro x
    cases x with
    | nil => simp [dot]
    | cons y ys =>
      simp only [List.map, dot, List.zipWith, List.sum_cons] at ih ⊢
      rw [ih ys]
      ring

lemma dot_zipWith_sub (f : ℚ) : ∀ (r p x : List ℚ), r.length = p.length →
    dot (List.zipWith (fun a q => a - f * q) r p) x =
      dot r x - f * dot p x := by
  intro r
  induction r with
  | nil =>
    intro p x h
    have : p = [] := by
      cases p with
      | nil => rfl
      | cons c u => simp at h
    simp [this, dot]
  | cons a t ih =>
    intro p x h
    cases p with
    | nil => simp at h
    | cons b s =>
      cases x with
      | nil => simp [dot]
      | cons y ys =>
        simp only [dot, List.zipWith, List.sum_cons] at ih ⊢
        rw [ih s ys (by simpa using h)]
        ring

lemma la_map_mul (r : Row) (c : ℚ) : la (r.map (· * c)) = la r * c := by
  cases hr : r with
  | nil => simp [la]
  | cons a t =>
    have hlen : r.length - 1 < r.length := by simp [hr]
    rw [← hr]
    unfold la
    rw [List.length_map, getD_map_mul _ _ _ hlen]

lemma la_zipWith_sub (f : ℚ) (r p : List ℚ) (h : r.length = p.length) :
    la (List.zipWith (fun a q => a - f * q) r p) = la r - f * la p := by
  cases hr : r with
  | nil =>
    have : p = [] := by
      cases p with
      | nil => rfl
      | cons c u => rw [hr] at h; simp at h
    simp [hr, this, la]
  | cons a t =>
    have hlen : r.length - 1 < r.length := by simp [hr]
    rw [← hr]
    unfold la
    rw [List.length_zipWith, ← h, Nat.min_self,
      getD_zipWith _ _ _ _ hlen (by omega), h]

/-- Scaling a row by a nonzero factor preserves its equation. -/
lemma rowEq_scale (r : Row) (x : List ℚ) (inv : ℚ) (hinv : inv ≠ 0) :
    rowEq (r.map (· * inv)) x ↔ rowEq r x := by
  unfold rowEq
  rw [← List.map_dropLast, dot_map_mul, la_map_mul]
  constructor
  · intro h
    apply mul_left_cancel₀ hinv
    linear_combination h
  · intro h
    linear_combination inv * h

/-- Subtracting a multiple of a row whose equation holds preserves the
other row's equation. -/
lemma rowEq_elim (r pr : Row) (x : List ℚ) (f : ℚ)
    (hlen : r.length = pr.length) (hpr : rowEq pr x) :
    rowEq (elimRow r pr f) x ↔ rowEq r x := by
  unfold rowEq at hpr ⊢
  rw [elimRow_all r pr f hlen,
    dropLast_zipWith _ _ _ hlen,
    dot_zipWith_sub f _ _ x (by simp [hlen]),
    la_zipWith_sub f r pr hlen, hpr]
  exact sub_left_inj

lemma pivotTab_rows_length (t : Tab) (row col : ℕ) (eps : ℚ) :
    (pivotTab t row col eps).rows.length = t.rows.length := by
  simp [pivotTab]

lemma pivotTab_rows_getD (t : Tab) (row col : ℕ) (eps : ℚ) (i : ℕ)
    (hi : i < t.rows.length) :
    (pivotTab t row col eps).rows.getD i [] =
      if i = row then
        scaleRow (t.rows.getD row [])
          (1 / (t.rows.getD row []).getD col 0) (width t)
      else if eps < |(t.rows.getD i []).getD col 0| then
        elimRow (t.rows.getD i [])
          (scaleRow (t.rows.getD row [])
            (1 / (t.rows.getD row []).getD col 0) (width t))
          ((t.rows.getD i []).getD col 0)
      else t.rows.getD i [] := by
  simp only [pivotTab]
  rw [getD_range_map _ _ _ hi]

lemma pivotTab_obj (t : Tab) (row col : ℕ) (eps : ℚ) :
    (pivotTab t row col eps).obj =
      if eps < |t.obj.getD col 0| then
        elimRow t.obj
          (scaleRow (t.rows.getD row [])
            (1 / (t.rows.getD row []).getD col 0) (width t))
          (t.obj.getD col 0)
      else t.obj := rfl

lemma row_length_of_uniform (t : Tab) (i : ℕ) (hi : i < t.rows.length)
    (huni : ∀ r ∈ t.rows, r.length = width t) :
    (t.rows.getD i []).length = width t := by
  apply huni
  rw [List.getD_eq_getElem _ _ hi]
  exact List.getElem_mem _

/- ===== Scan lemmas for the pivot selection (C4) ===== -/

lemma scanEnter_some (obj : Row) (basis : List ℕ) (eps : ℚ) :
    ∀ (count j0 j : ℕ), scanEnter obj basis eps count j0 = some j →
      j0 ≤ j ∧ j < j0 + count ∧ (j ∉ basis ∧ obj.getD j 0 < -eps) ∧
        ∀ k, j0 ≤ k → k < j → ¬(k ∉ basis ∧ obj.getD k 0 < -eps) := by
  intro count
  induction count with
  | zero => intro j0 j h; simp [scanEnter] at h
  | succ c ih =>
    intro j0 j h
    unfold scanEnter at h
    split at h
    · next hP =>
      cases h
      exact ⟨le_refl _, by omega, hP, fun k hk1 hk2 => by omega⟩
    · next hP =>
      obtain ⟨h1, h2, h3, h4⟩ := ih (j0 + 1) j h
      refine ⟨by omega, by omega, h3, ?_⟩
      intro k hk1 hk2
      rcases Nat.eq_or_lt_of_le hk1 with he | hlt
      · rw [← he]; exact hP
      · exact h4 k hlt hk2

lemma scanEnter_none (obj : Row) (basis : List ℕ) (eps : ℚ) :
    ∀ (count j0 : ℕ), scanEnter obj basis eps count j0 = none →
      ∀ k, j0 ≤ k → k < j0 + count →
        ¬(k ∉ basis ∧ obj.getD k 0 < -eps) := by
  intro count
  induction count with
  | zero => intro j0 _ k hk1 hk2; omega
  | succ c ih =>
    intro j0 h k hk1 hk2
    unfold scanEnter at h
    split at h
    · exact absurd h (by simp)
    · next hP =>
      rcases Nat.eq_or_lt_of_le hk1 with he | hlt
      · rw [← he]; exact hP
      · exact ih (j0 + 1) h k hlt (by omega)

lemma scanLeave_inv (t : Tab) (basis : List ℕ) (col : ℕ) (eps : ℚ)
    (h0 : 0 ≤ eps) :
    ∀ (count i0 : ℕ) (st : Option ℕ × Option ℚ),
      leaveInv t col eps i0 st →
        leaveInv t col eps (i0 + count)
          (scanLeave t.rows basis col eps count i0 st) := by
  intro count
  induction count with
  | zero => intro i0 st h; simpa [scanLeave] using h
  | succ c ih =>
    intro i0 st h
    unfold scanLeave
    have harith : i0 + (c + 1) = (i0 + 1) + c := by omega
    rw [harith]
    apply ih
    -- one scan step preserves the invariant with the bound moved up one
    by_cases hc : eps < (t.rows.getD i0 []).getD col 0
    · rw [if_pos hc]
      have hce : eps < entryAt t col i0 := hc
      have hrr : la (t.rows.getD i0 []) /
          (t.rows.getD i0 []).getD col 0 = ratioAt t col i0 := rfl
      match st, h with
      | (some _, none), h => exact h.elim
      | (none, some _), h => exact h.elim
      | (none, none), h =>
        dsimp only
        rw [hrr]
        refine ⟨by omega, hce, by linarith, ?_⟩
        intro i hi hqi
        rcases Nat.lt_succ_iff_lt_or_eq.mp hi with hlt | heq
        · exact absurd hqi (h i hlt)
        · rw [heq]; linarith
      | (some l, some m0), h =>
        obtain ⟨hl, hql, hrl, hall⟩ := h
        dsimp only
        rw [hrr]
        split
        · next hb1 =>
          refine ⟨by omega, hce, by linarith, ?_⟩
          intro i hi hqi
          rcases Nat.lt_succ_iff_lt_or_eq.mp hi with hlt | heq
          · have := hall i hlt hqi
            linarith
          · rw [heq]; linarith
        · next hb1 =>
          have hb1r : ¬ ratioAt t col i0 < m0 - eps := hb1
          split
          · next hb2 =>
            have habs := abs_le.mp hb2
            have habs1 : ratioAt t col i0 - m0 ≤ eps := habs.2
            split
            · refine ⟨by omega, hce, ?_, ?_⟩
              · show ratioAt t col i0 ≤ m0 + eps
                linarith
              · intro i hi hqi
                rcases Nat.lt_succ_iff_lt_or_eq.mp hi with hlt | heq
                · exact hall i hlt hqi
                · rw [heq]
                  have := not_lt.mp hb1r
                  linarith
            · refine ⟨by omega, hql, hrl, ?_⟩
              intro i hi hqi
              rcases Nat.lt_succ_iff_lt_or_eq.mp hi with hlt | heq
              · exact hall i hlt hqi
              · rw [heq]
                have := not_lt.mp hb1r
                linarith
          · next hb2 =>
            refine ⟨by omega, hql, hrl, ?_⟩
            intro i hi hqi
            rcases Nat.lt_succ_iff_lt_or_eq.mp hi with hlt | heq
            · exact hall i hlt hqi
            · rw [heq]
              have := not_lt.mp hb1r
              show m0 ≤ ratioAt t col i0 + eps
              linarith
    · rw [if_neg hc]
      match st, h with
      | (some _, none), h => exact h.elim
      | (none, some _), h => exact h.elim
      | (none, none), h =>
        intro i hi hqi
        rcases Nat.lt_succ_iff_lt_or_eq.mp hi with hlt | heq
        · exact h i hlt hqi
        · rw [heq] at hqi; exact hc hqi
      | (some l, some m0), h =>
        obtain ⟨hl, hql, hrl, hall⟩ := h
        refine ⟨by omega, hql, hrl, ?_⟩
        intro i hi hqi
        rcases Nat.lt_succ_iff_lt_or_eq.mp hi with hlt | heq
        · exact hall i hlt hqi
        · rw [heq] at hqi; exact absurd hqi hc

/- ===== Claim theorems ===== -/

/-- C8: `solve_lp` is deterministic — two runs on the same inputs
`(c, A, b, minimize, eps, max_iter)` return identical `solution` and
`objective` values.  The embedding is a pure function of its arguments
(the source consults no randomness or ambient state), so the two runs are
the same term. -/
theorem c8_solve_lp_deterministic (c : List ℚ) (A : List Row) (b : List ℚ)
    (minimize : Bool) (eps : ℚ) (maxIter : ℕ) :
    (solve_lp c A b minimize eps maxIter).solution =
      (solve_lp c A b minimize eps maxIter).solution ∧
    (solve_lp c A b minimize eps maxIter).objective =
      (solve_lp c A b minimize eps maxIter).objective :=
  ⟨rfl, rfl⟩

/-- C10: whenever `solve_lp` reports `INFEASIBLE` (which happens only at
the early return of lines 72-73), the solution is the all-zeros vector of
length `n = len(c)` and the objective is `+inf`, for either value of
`minimize`. -/
theorem c10_infeasible_zeros_inf (c : List ℚ) (A : List Row) (b : List ℚ)
    (minimize : Bool) (eps : ℚ) (maxIter : ℕ)
    (h : (solve_lp c A b minimize eps maxIter).status = Status.infeasible) :
    (solve_lp c A b minimize eps maxIter).solution =
        List.replicate c.length 0 ∧
      (solve_lp c A b minimize eps maxIter).objective = Val.inf := by
  unfold solve_lp lpMain at h ⊢
  cases hflag : (lpRun c.length
      (if minimize then c else c.map fun x => -x) A b eps maxIter).1 with
  | true => rw [if_pos hflag] at h ⊢; exact ⟨rfl, rfl⟩
  | false =>
    rw [if_neg (by simp [hflag])] at h
    rw [extract_status] at h
    exact absurd h (lpRun_false_status _ _ _ _ _ _ _ rfl hflag)

/-- The system `x ≥ 1 ∧ x ≤ 0` (spec scenario 3) is reported
`INFEASIBLE` — evaluation of the embedding. -/
lemma scenario3_status :
    (solve_lp [1] [[-1], [1]] [-1, 0] true (1 / 10 ^ 10) 10).status =
      Status.infeasible := rfl

/-- C10 witness: the infeasible system `x ≥ 1 ∧ x ≤ 0` (spec scenario 3)
is reported `INFEASIBLE` with solution `[0]` and objective `+inf`. -/
theorem c10_witness :
    (solve_lp [1] [[-1], [1]] [-1, 0] true (1 / 10 ^ 10) 10).status =
        Status.infeasible ∧
      (solve_lp [1] [[-1], [1]] [-1, 0] true (1 / 10 ^ 10) 10).solution =
          List.replicate 1 0 ∧
        (solve_lp [1] [[-1], [1]] [-1, 0] true (1 / 10 ^ 10) 10).objective =
          Val.inf :=
  ⟨scenario3_status, c10_infeasible_zeros_inf [1] [[-1], [1]] [-1, 0] true
    (1 / 10 ^ 10) 10 scenario3_status⟩

/-- C1: the claim says that exhausting `max_iter` during the Phase 1
auxiliary optimization is reported as `MAX_ITER`, never as infeasibility.
The code disagrees: when the auxiliary objective still exceeds `eps` at
budget exhaustion, `_phase1` (line 119) returns `INFEASIBLE` regardless of
the `MAX_ITER` status, and `solve_lp` (lines 72-73) passes that on.  On
the feasible system `x ≤ 1 ∧ x + y ≥ 2` (take `x = y = 1`) with
`max_iter = 1` the solver answers `INFEASIBLE`; the same input with
budget `100` is solved to optimality, confirming that only the iteration
budget — not feasibility — differed. -/
theorem c1_phase1_budget_reported_infeasible :
    (solve_lp [0, 0] [[1, 0], [-1, -1]] [1, -2] true (1 / 10 ^ 10) 1).status
        = Status.infeasible ∧
      (solve_lp [0, 0] [[1, 0], [-1, -1]] [1, -2] true
          (1 / 10 ^ 10) 100).status = Status.optimal ∧
      (solve_lp [0, 0] [[1, 0], [-1, -1]] [1, -2] true
          (1 / 10 ^ 10) 100).solution = [1, 1] ∧
      dot [1, 0] [1, 1] ≤ 1 ∧ dot [-1, -1] [1, 1] ≤ -2 := by
  refine ⟨rfl, rfl, rfl, ?_, ?_⟩ <;> decide

/-- C2: the feasibility guarantee fails.  On
`maximize x` subject to `x ≤ 1` and `K·x ≤ K − 50` with `K = 10^12`
(so the true optimum is `x = 1 − 5·10⁻¹¹`), the two ratio-test ratios
differ by `5·10⁻¹¹ ≤ eps`, the eps-tolerant tie-break (lines 160-162)
keeps the row with the larger ratio, and the solver returns `OPTIMAL`
with `solution = [1]` — which violates the second constraint by `50`,
vastly more than `eps`. -/
theorem c2_optimal_solution_infeasible :
    (solve_lp [-1] [[1], [10 ^ 12]] [1, 10 ^ 12 - 50] true
        (1 / 10 ^ 10) 10).status = Status.optimal ∧
      (solve_lp [-1] [[1], [10 ^ 12]] [1, 10 ^ 12 - 50] true
          (1 / 10 ^ 10) 10).solution = [1] ∧
      (10 ^ 12 - 50 : ℚ) + 1 / 10 ^ 10 < dot [10 ^ 12] [1] := by
  refine ⟨rfl, rfl, ?_⟩
  norm_num [dot]

/-- C3 counterexample: with `minimize = true` on both sides (as the claim
literally states), `minimize x` subject to `x ≤ 1` gives objective `0`
while `-(minimize -x)` gives `1`. -/
theorem c3_counterexample :
    ¬ (solve_lp [1] [[1]] [1] true (1 / 10 ^ 10) 10).objective =
        Val.neg ((solve_lp [-1] [[1]] [1] true (1 / 10 ^ 10) 10).objective)
    := by decide

/-- C3 amended: maximization is negate-and-minimize — with
`minimize = false` on the left call, `solve_lp(c, A, b, minimize=false)`
and `solve_lp(-c, A, b, minimize=true)` run the identical pipeline and
report objectives of opposite sign, provided the run is not the
`INFEASIBLE` early return (there both objectives are `+inf`). -/
theorem c3_negate_minimize_amended (c : List ℚ) (A : List Row)
    (b : List ℚ) (eps : ℚ) (k : ℕ)
    (h : (solve_lp c A b false eps k).status ≠ Status.infeasible) :
    (solve_lp c A b false eps k).objective =
      Val.neg ((solve_lp (c.map fun x => -x) A b true eps k).objective) := by
  unfold solve_lp at h ⊢
  simp only [Bool.false_eq_true, if_false, if_true, List.length_map] at h ⊢
  exact lpMain_obj_neg c.length (c.map fun x => -x) A b eps k h

/-- Evaluation: maximizing `x` subject to `x ≤ 1` is reported optimal. -/
lemma scenario_max_status :
    (solve_lp [1] [[1]] [1] false (1 / 10 ^ 10) 10).status ≠
      Status.infeasible := by decide

/-- C3 amended witness at `maximize x` subject to `x ≤ 1`: objective `1`
versus minimized negation `-1`. -/
theorem c3_amended_witness :
    (solve_lp [1] [[1]] [1] false (1 / 10 ^ 10) 10).status ≠
        Status.infeasible ∧
      (solve_lp [1] [[1]] [1] false (1 / 10 ^ 10) 10).objective =
        Val.neg ((solve_lp ([1].map fun x => -x) [[1]] [1] true
          (1 / 10 ^ 10) 10).objective) :=
  ⟨scenario_max_status,
    c3_negate_minimize_amended [1] [[1]] [1] (1 / 10 ^ 10) 10
      scenario_max_status⟩

/-- C9: `solve_milp` only ever reports `OPTIMAL`, `FEASIBLE`,
`INFEASIBLE` or `UNBOUNDED` — never `MAX_ITER`, even though the inner
`solve_lp` calls can return it (a non-`OPTIMAL` node relaxation is
simply discarded at line 100); and a root relaxation that comes back
`MAX_ITER` with a fully integral solution is reported as `OPTIMAL`
(lines 78-81 consult only the fractionality of the root solution). -/
theorem c9_status_set :
    (∀ (c : List ℚ) (A : List Row) (b : List ℚ) (ints : List ℕ)
        (mz : Bool) (eps : ℚ) (mi mn : ℕ) (gt : ℚ),
      (solve_milp c A b ints mz eps mi mn gt).status ≠ Status.maxIter ∧
        ((solve_milp c A b ints mz eps mi mn gt).status = Status.optimal ∨
          (solve_milp c A b ints mz eps mi mn gt).status = Status.feasible ∨
          (solve_milp c A b ints mz eps mi mn gt).status =
            Status.infeasible ∨
          (solve_milp c A b ints mz eps mi mn gt).status =
            Status.unbounded)) ∧
    (∀ (c : List ℚ) (A : List Row) (b : List ℚ) (ints : List ℕ)
        (mz : Bool) (eps : ℚ) (mi mn : ℕ) (gt : ℚ),
      (solveNode c A b (List.replicate c.length 0)
          (List.replicate c.length Val.inf) mz eps mi).status =
        Status.maxIter →
      mostFractional (solveNode c A b (List.replicate c.length 0)
          (List.replicate c.length Val.inf) mz eps mi).solution
          (sortAsc ints.dedup) eps = none →
      solve_milp c A b ints mz eps mi mn gt =
        ⟨some (solveNode c A b (List.replicate c.length 0)
            (List.replicate c.length Val.inf) mz eps mi).solution,
          (solveNode c A b (List.replicate c.length 0)
            (List.replicate c.length Val.inf) mz eps mi).objective,
          1,
          (solveNode c A b (List.replicate c.length 0)
            (List.replicate c.length Val.inf) mz eps mi).iterations,
          Status.optimal⟩) := by
  constructor
  · intro c A b ints mz eps mi mn gt
    have hset : (solve_milp c A b ints mz eps mi mn gt).status =
          Status.optimal ∨
        (solve_milp c A b ints mz eps mi mn gt).status = Status.feasible ∨
        (solve_milp c A b ints mz eps mi mn gt).status =
          Status.infeasible ∨
        (solve_milp c A b ints mz eps mi mn gt).status =
          Status.unbounded := by
      simp only [solve_milp]
      repeat' split
      all_goals
        first
          | exact Or.inl rfl
          | exact Or.inr (Or.inl rfl)
          | exact Or.inr (Or.inr (Or.inl rfl))
          | exact Or.inr (Or.inr (Or.inr rfl))
          | (rcases milpLoop_status_ok c A b (sortAsc ints.dedup) mz eps mi
                mn gt _ _ _ _ _ _ _ with h | h | h <;> tauto)
    refine ⟨?_, hset⟩
    rcases hset with h | h | h | h <;> simp [h]
  · intro c A b ints mz eps mi mn gt hroot hfrac
    simp only [solve_milp]
    rw [if_neg (by rw [hroot]; decide), if_neg (by rw [hroot]; decide),
      hfrac]

/-- Evaluation: with `max_iter = 0`, the root relaxation of
`minimize 0 subject to x ≤ 1` comes back `MAX_ITER`. -/
lemma c9_root_maxiter :
    (solveNode [0] [[1]] [1] (List.replicate 1 0)
        (List.replicate 1 Val.inf) true (1 / 10 ^ 6) 0).status =
      Status.maxIter := rfl

/-- Evaluation: that root solution `[0]` is fully integral. -/
lemma c9_root_integral :
    mostFractional (solveNode [0] [[1]] [1] (List.replicate 1 0)
        (List.replicate 1 Val.inf) true (1 / 10 ^ 6) 0).solution
        (sortAsc ([0] : List ℕ).dedup) (1 / 10 ^ 6) = none := rfl

/-- C9 witness: on `minimize 0 subject to x ≤ 1, x ∈ ℤ` with
`max_iter = 0` the root LP reports `MAX_ITER`, yet `solve_milp` reports
`OPTIMAL` with the root solution `[0]`. -/
theorem c9_witness :
    solve_milp [0] [[1]] [1] [0] true (1 / 10 ^ 6) 0 100 (1 / 10 ^ 6) =
      ⟨some (solveNode [0] [[1]] [1] (List.replicate 1 0)
          (List.replicate 1 Val.inf) true (1 / 10 ^ 6) 0).solution,
        (solveNode [0] [[1]] [1] (List.replicate 1 0)
          (List.replicate 1 Val.inf) true (1 / 10 ^ 6) 0).objective,
        1,
        (solveNode [0] [[1]] [1] (List.replicate 1 0)
          (List.replicate 1 Val.inf) true (1 / 10 ^ 6) 0).iterations,
        Status.optimal⟩ :=
  c9_status_set.2 [0] [[1]] [1] [0] true (1 / 10 ^ 6) 0 100 (1 / 10 ^ 6)
    c9_root_maxiter c9_root_integral

/-- C5: the terminal statuses of `solve_milp`.
(1) A root relaxation reported `INFEASIBLE` propagates as overall
`INFEASIBLE` (with no solution); (2) a root `UNBOUNDED` propagates as
`UNBOUNDED`; (3) when the search loop ends with an empty queue and an
incumbent, the incumbent is returned as `OPTIMAL`; (4) when `max_nodes`
is exhausted with an incumbent and a non-empty queue, the incumbent is
returned as `FEASIBLE`; (5) when the loop returns no incumbent at all,
the status is `INFEASIBLE`. -/
theorem c5_terminal_statuses :
    (∀ (c : List ℚ) (A : List Row) (b : List ℚ) (ints : List ℕ)
        (mz : Bool) (eps : ℚ) (mi mn : ℕ) (gt : ℚ),
      (solveNode c A b (List.replicate c.length 0)
          (List.replicate c.length Val.inf) mz eps mi).status =
        Status.infeasible →
      solve_milp c A b ints mz eps mi mn gt =
        ⟨none, if mz then Val.inf else Val.ninf, 0,
          (solveNode c A b (List.replicate c.length 0)
            (List.replicate c.length Val.inf) mz eps mi).iterations,
          Status.infeasible⟩) ∧
    (∀ (c : List ℚ) (A : List Row) (b : List ℚ) (ints : List ℕ)
        (mz : Bool) (eps : ℚ) (mi mn : ℕ) (gt : ℚ),
      (solveNode c A b (List.replicate c.length 0)
          (List.replicate c.length Val.inf) mz eps mi).status =
        Status.unbounded →
      solve_milp c A b ints mz eps mi mn gt =
        ⟨none, if mz then Val.ninf else Val.inf, 0,
          (solveNode c A b (List.replicate c.length 0)
            (List.replicate c.length Val.inf) mz eps mi).iterations,
          Status.unbounded⟩) ∧
    (∀ (c : List ℚ) (A : List Row) (b : List ℚ) (il : List ℕ) (mz : Bool)
        (eps : ℚ) (mi mn : ℕ) (gt : ℚ) (fuel : ℕ) (s : List ℚ) (bo : Val)
        (e ti cnt : ℕ),
      milpLoop c A b il mz eps mi mn gt fuel [] (some s) bo e ti cnt =
        ⟨some s, bo, e, ti, Status.optimal⟩) ∧
    (∀ (c : List ℚ) (A : List Row) (b : List ℚ) (il : List ℕ) (mz : Bool)
        (eps : ℚ) (mi mn : ℕ) (gt : ℚ) (fuel : ℕ) (tree : List Entry)
        (s : List ℚ) (bo : Val) (e ti cnt : ℕ),
      tree ≠ [] → ¬ e < mn →
      milpLoop c A b il mz eps mi mn gt fuel tree (some s) bo e ti cnt =
        ⟨some s, bo, e, ti, Status.feasible⟩) ∧
    (∀ (c : List ℚ) (A : List Row) (b : List ℚ) (il : List ℕ) (mz : Bool)
        (eps : ℚ) (mi mn : ℕ) (gt : ℚ) (fuel : ℕ) (tree : List Entry)
        (best : Option (List ℚ)) (bo : Val) (e ti cnt : ℕ),
      (milpLoop c A b il mz eps mi mn gt fuel tree best bo e ti
          cnt).solution = none →
      (milpLoop c A b il mz eps mi mn gt fuel tree best bo e ti
          cnt).status = Status.infeasible) := by
  refine ⟨?_, ?_, ?_, ?_, ?_⟩
  · intro c A b ints mz eps mi mn gt h
    simp only [solve_milp]
    rw [if_pos h]
  · intro c A b ints mz eps mi mn gt h
    simp only [solve_milp]
    rw [if_neg (by rw [h]; decide), if_pos h]
  · intro c A b il mz eps mi mn gt fuel s bo e ti cnt
    cases fuel with
    | zero => rfl
    | succ f =>
      simp only [milpLoop]
      simp [milpTerminal]
  · intro c A b il mz eps mi mn gt fuel tree s bo e ti cnt htree he
    cases fuel with
    | zero => simp [milpLoop, milpTerminal, htree]
    | succ f =>
      simp only [milpLoop]
      rw [if_pos (Or.inr he)]
      simp [milpTerminal, htree]
  · intro c A b il mz eps mi mn gt fuel tree best bo e ti cnt
    exact milpLoop_none_infeasible c A b il mz eps mi mn gt fuel tree best
      bo e ti cnt

/-- C4 amended: what the Phase 2 iteration actually selects.
(1) The entering variable is exactly as claimed: the lowest-indexed
non-basic column (among indices `< n_cols − 1`) with objective entry
`< −eps`, and (2) when none qualifies the whole scan finds nothing;
(3) the step returns `OPTIMAL` exactly when no entering column exists.
(4) For the leaving row, the `eps`-tolerant comparisons only guarantee an
*approximate* minimum: the selected row has pivot-column entry `> eps`
and its ratio is within `2·eps` of every ratio among such rows (the
exact minimum-ratio row, ties broken by lowest basis index, is not
always the one chosen — see the counterexample).  (5) No row with entry
`> eps` exists iff the scan finds nothing, and (6) with an entering
column present the step returns `UNBOUNDED` iff the scan found no row,
else it pivots on the chosen pair and updates the basis. -/
theorem c4_blands_rule_amended :
    (∀ (t : Tab) (basis : List ℕ) (eps : ℚ) (j : ℕ),
      chooseEnter t basis eps = some j →
        (j ∉ basis ∧ t.obj.getD j 0 < -eps) ∧ j < width t - 1 ∧
          ∀ k < j, ¬(k ∉ basis ∧ t.obj.getD k 0 < -eps)) ∧
    (∀ (t : Tab) (basis : List ℕ) (eps : ℚ),
      chooseEnter t basis eps = none →
        ∀ k < width t - 1, ¬(k ∉ basis ∧ t.obj.getD k 0 < -eps)) ∧
    (∀ (t : Tab) (basis : List ℕ) (m : ℕ) (eps : ℚ),
      phase2Step t basis m eps = Sum.inl Status.optimal ↔
        chooseEnter t basis eps = none) ∧
    (∀ (t : Tab) (basis : List ℕ) (m : ℕ) (eps : ℚ) (e l : ℕ), 0 ≤ eps →
      chooseLeave t basis e eps m = some l →
        l < m ∧ eps < entryAt t e l ∧
          ∀ i < m, eps < entryAt t e i →
            ratioAt t e l ≤ ratioAt t e i + 2 * eps) ∧
    (∀ (t : Tab) (basis : List ℕ) (m : ℕ) (eps : ℚ) (e : ℕ), 0 ≤ eps →
      (chooseLeave t basis e eps m = none ↔
        ∀ i < m, ¬ eps < entryAt t e i)) ∧
    (∀ (t : Tab) (basis : List ℕ) (m : ℕ) (eps : ℚ) (e : ℕ),
      chooseEnter t basis eps = some e →
        (phase2Step t basis m eps = Sum.inl Status.unbounded ↔
          chooseLeave t basis e eps m = none) ∧
        ∀ l, chooseLeave t basis e eps m = some l →
          phase2Step t basis m eps =
            Sum.inr (pivotTab t l e eps, basis.set l e)) := by
  refine ⟨?_, ?_, ?_, ?_, ?_, ?_⟩
  · intro t basis eps j h
    obtain ⟨h1, h2, h3, h4⟩ :=
      scanEnter_some t.obj basis eps (width t - 1) 0 j h
    exact ⟨h3, by omega, fun k hk => h4 k (by omega) hk⟩
  · intro t basis eps h k hk
    exact scanEnter_none t.obj basis eps (width t - 1) 0 h k (by omega)
      (by omega)
  · intro t basis m eps
    constructor
    · intro h
      unfold phase2Step at h
      cases he : chooseEnter t basis eps with
      | none => rfl
      | some e =>
        rw [he] at h
        dsimp only at h
        cases hl : chooseLeave t basis e eps m with
        | none => rw [hl] at h; simp at h
        | some l => rw [hl] at h; simp at h
    · intro h
      unfold phase2Step
      rw [h]
  · intro t basis m eps e l h0 h
    have hinv := scanLeave_inv t basis e eps h0 m 0 (none, none)
      (by intro i hi; omega)
    unfold chooseLeave at h
    rcases hs : scanLeave t.rows basis e eps m 0 (none, none) with ⟨l', mr⟩
    rw [hs] at h hinv
    simp only at h
    subst h
    cases mr with
    | none => exact hinv.elim
    | some m0 =>
      obtain ⟨hl, hql, hrl, hall⟩ := hinv
      refine ⟨by simpa using hl, hql, ?_⟩
      intro i hi hqi
      have := hall i (by simpa using hi) hqi
      linarith
  · intro t basis m eps e h0
    have hinv := scanLeave_inv t basis e eps h0 m 0 (none, none)
      (by intro i hi; omega)
    unfold chooseLeave
    rcases hs : scanLeave t.rows basis e eps m 0 (none, none) with ⟨l', mr⟩
    rw [hs] at hinv
    simp only
    cases l' with
    | none =>
      cases mr with
      | none =>
        constructor
        · intro _ i hi
          exact hinv i (by simpa using hi)
        · intro _; rfl
      | some m0 => exact hinv.elim
    | some l0 =>
      cases mr with
      | none => exact hinv.elim
      | some m0 =>
        obtain ⟨hl, hql, _, _⟩ := hinv
        constructor
        · intro h; simp at h
        · intro hall
          exact absurd hql (hall l0 (by simpa using hl))
  · intro t basis m eps e he
    refine ⟨⟨?_, ?_⟩, ?_⟩
    · intro h
      unfold phase2Step at h
      rw [he] at h
      dsimp only at h
      cases hl : chooseLeave t basis e eps m with
      | none => rfl
      | some l => rw [hl] at h; simp at h
    · intro h
      unfold phase2Step
      rw [he]
      dsimp only
      rw [h]
    · intro l hl
      unfold phase2Step
      rw [he]
      dsimp only
      rw [hl]

/-- C4 counterexample: the leaving row is not the minimum-ratio row with
ties broken by lowest basis index.  At the very first Phase 2 iteration
of `solve_lp` on the input of `c2_optimal_solution_infeasible` (the
tableau below is exactly the all-slack starting state that `solve_lp`
builds for it) the entering column is `0`; the ratios are `1` (row 0)
and `1 − 5·10⁻¹¹` (row 1), so the spec's rule (`leaveSpec`, written from
the spec's words) picks row `1`, but the code's `eps`-tolerant scan
treats them as tied and keeps row `0`, whose basis index is lower. -/
theorem c4_counterexample :
    chooseEnter
        ⟨initRows 1 2 [[1], [10 ^ 12]] [1, 10 ^ 12 - 50],
          [-1, 0, 0, 0]⟩ [1, 2] (1 / 10 ^ 10) = some 0 ∧
    chooseLeave
        ⟨initRows 1 2 [[1], [10 ^ 12]] [1, 10 ^ 12 - 50],
          [-1, 0, 0, 0]⟩ [1, 2] 0 (1 / 10 ^ 10) 2 = some 0 ∧
    leaveSpec
        ⟨initRows 1 2 [[1], [10 ^ 12]] [1, 10 ^ 12 - 50],
          [-1, 0, 0, 0]⟩ [1, 2] 0 (1 / 10 ^ 10) 2 = some 1 ∧
    ¬ chooseLeave
        ⟨initRows 1 2 [[1], [10 ^ 12]] [1, 10 ^ 12 - 50],
          [-1, 0, 0, 0]⟩ [1, 2] 0 (1 / 10 ^ 10) 2 =
      leaveSpec
        ⟨initRows 1 2 [[1], [10 ^ 12]] [1, 10 ^ 12 - 50],
          [-1, 0, 0, 0]⟩ [1, 2] 0 (1 / 10 ^ 10) 2 :=
  ⟨rfl, rfl, rfl, by decide⟩

/-- Evaluation: on the maximization tableau of spec scenario 2, the
entering column is `0`. -/
lemma c4_enter_eval :
    chooseEnter
        ⟨initRows 2 2 [[1, 1], [1, 0]] [4, 3], [-1, -1, 0, 0, 0]⟩
        [2, 3] (1 / 10 ^ 10) = some 0 := rfl

/-- Evaluation: there the leaving-row scan picks row `1` (ratio `3`
beats ratio `4`). -/
lemma c4_leave_eval :
    chooseLeave
        ⟨initRows 2 2 [[1, 1], [1, 0]] [4, 3], [-1, -1, 0, 0, 0]⟩
        [2, 3] 0 (1 / 10 ^ 10) 2 = some 1 := rfl

/-- C4 amended witness: the conjuncts of `c4_blands_rule_amended`
instantiated on the scenario-2 tableau, entering column `0`, leaving
row `1`. -/
theorem c4_amended_witness :
    ((0 ∉ [2, 3] ∧
        (Tab.mk (initRows 2 2 [[1, 1], [1, 0]] [4, 3])
          [-1, -1, 0, 0, 0]).obj.getD 0 0 < -(1 / 10 ^ 10)) ∧
      0 < width (Tab.mk (initRows 2 2 [[1, 1], [1, 0]] [4, 3])
          [-1, -1, 0, 0, 0]) - 1 ∧
      ∀ k < 0, ¬(k ∉ [2, 3] ∧
        (Tab.mk (initRows 2 2 [[1, 1], [1, 0]] [4, 3])
          [-1, -1, 0, 0, 0]).obj.getD k 0 < -(1 / 10 ^ 10))) ∧
    (1 < 2 ∧
      (1 / 10 ^ 10 : ℚ) <
        entryAt (Tab.mk (initRows 2 2 [[1, 1], [1, 0]] [4, 3])
          [-1, -1, 0, 0, 0]) 0 1 ∧
      ∀ i < 2, (1 / 10 ^ 10 : ℚ) <
          entryAt (Tab.mk (initRows 2 2 [[1, 1], [1, 0]] [4, 3])
            [-1, -1, 0, 0, 0]) 0 i →
        ratioAt (Tab.mk (initRows 2 2 [[1, 1], [1, 0]] [4, 3])
            [-1, -1, 0, 0, 0]) 0 1 ≤
          ratioAt (Tab.mk (initRows 2 2 [[1, 1], [1, 0]] [4, 3])
            [-1, -1, 0, 0, 0]) 0 i + 2 * (1 / 10 ^ 10)) ∧
    phase2Step (Tab.mk (initRows 2 2 [[1, 1], [1, 0]] [4, 3])
        [-1, -1, 0, 0, 0]) [2, 3] 2 (1 / 10 ^ 10) =
      Sum.inr
        (pivotTab (Tab.mk (initRows 2 2 [[1, 1], [1, 0]] [4, 3])
          [-1, -1, 0, 0, 0]) 1 0 (1 / 10 ^ 10),
         ([2, 3] : List ℕ).set 1 0) :=
  ⟨c4_blands_rule_amended.1
      (Tab.mk (initRows 2 2 [[1, 1], [1, 0]] [4, 3]) [-1, -1, 0, 0, 0])
      [2, 3] (1 / 10 ^ 10) 0 c4_enter_eval,
    c4_blands_rule_amended.2.2.2.1
      (Tab.mk (initRows 2 2 [[1, 1], [1, 0]] [4, 3]) [-1, -1, 0, 0, 0])
      [2, 3] 2 (1 / 10 ^ 10) 0 1 (by decide) c4_leave_eval,
    (c4_blands_rule_amended.2.2.2.2.2
      (Tab.mk (initRows 2 2 [[1, 1], [1, 0]] [4, 3]) [-1, -1, 0, 0, 0])
      [2, 3] 2 (1 / 10 ^ 10) 0 c4_enter_eval).2 1 c4_leave_eval⟩

/-- C6 amended: a `_pivot` with nonzero pivot entry on a tableau whose
constraint rows all have the tableau width preserves the solution set of
the constraint rows read as linear equations (each step is an elementary
row operation; the `eps`-skips subtract nothing, which is also an
elementary operation), and the *pivot column* becomes an identity column
up to `eps`: exactly `1` in the pivot row and magnitude at most `eps`
in every other row, the objective row included. -/
theorem c6_pivot_amended (t : Tab) (row col : ℕ) (eps : ℚ)
    (h0 : 0 ≤ eps) (hrow : row < t.rows.length) (hcol : col < width t)
    (huni : ∀ r ∈ t.rows, r.length = width t)
    (hobj : width t ≤ t.obj.length)
    (hp : (t.rows.getD row []).getD col 0 ≠ 0) :
    (∀ x, satRows t.rows x ↔ satRows (pivotTab t row col eps).rows x) ∧
    ((pivotTab t row col eps).rows.getD row []).getD col 0 = 1 ∧
    (∀ i < t.rows.length, i ≠ row →
      |((pivotTab t row col eps).rows.getD i []).getD col 0| ≤ eps) ∧
    |(pivotTab t row col eps).obj.getD col 0| ≤ eps := by
  have hrEq : ∀ i, i < t.rows.length →
      (t.rows.getD i []).length = width t :=
    fun i hi => row_length_of_uniform t i hi huni
  have hinv : (1 : ℚ) / (t.rows.getD row []).getD col 0 ≠ 0 :=
    one_div_ne_zero hp
  have hprScaled : scaleRow (t.rows.getD row [])
      (1 / (t.rows.getD row []).getD col 0) (width t) =
      (t.rows.getD row []).map
        (· * (1 / (t.rows.getD row []).getD col 0)) := by
    rw [← hrEq row hrow]
    exact scaleRow_all _ _
  have hprlen : (scaleRow (t.rows.getD row [])
      (1 / (t.rows.getD row []).getD col 0) (width t)).length = width t := by
    rw [hprScaled, List.length_map, hrEq row hrow]
  have hone : (scaleRow (t.rows.getD row [])
      (1 / (t.rows.getD row []).getD col 0) (width t)).getD col 0 = 1 := by
    rw [hprScaled, getD_map_mul _ _ _ (by rw [hrEq row hrow]; exact hcol)]
    exact mul_one_div_cancel hp
  refine ⟨?_, ?_, ?_, ?_⟩
  · intro x
    unfold satRows
    constructor
    · intro hOld
      have hpr0 : rowEq (t.rows.getD row []) x := hOld row hrow
      have hpr : rowEq (scaleRow (t.rows.getD row [])
          (1 / (t.rows.getD row []).getD col 0) (width t)) x := by
        rw [hprScaled]
        exact (rowEq_scale _ _ _ hinv).mpr hpr0
      intro i hi0
      have hi : i < t.rows.length := by
        rwa [pivotTab_rows_length] at hi0
      show rowEq ((pivotTab t row col eps).rows.getD i []) x
      rw [pivotTab_rows_getD t row col eps i hi]
      by_cases hir : i = row
      · rw [if_pos hir]; exact hpr
      · rw [if_neg hir]
        split
        · exact (rowEq_elim _ _ _ _
            (by rw [hrEq i hi, hprlen]) hpr).mpr (hOld i hi)
        · exact hOld i hi
    · intro hNew
      have hprNew : rowEq (scaleRow (t.rows.getD row [])
          (1 / (t.rows.getD row []).getD col 0) (width t)) x := by
        have h := hNew row (by rw [pivotTab_rows_length]; exact hrow)
        rw [pivotTab_rows_getD t row col eps row hrow, if_pos rfl] at h
        exact h
      have hpr0 : rowEq (t.rows.getD row []) x := by
        rw [hprScaled] at hprNew
        exact (rowEq_scale _ _ _ hinv).mp hprNew
      intro i hi
      show rowEq (t.rows.getD i []) x
      by_cases hir : i = row
      · rw [hir]; exact hpr0
      · have hN := hNew i (by rw [pivotTab_rows_length]; exact hi)
        rw [pivotTab_rows_getD t row col eps i hi, if_neg hir] at hN
        split at hN
        · exact (rowEq_elim _ _ _ _
            (by rw [hrEq i hi, hprlen]) hprNew).mp hN
        · exact hN
  · rw [pivotTab_rows_getD t row col eps row hrow, if_pos rfl]
    exact hone
  · intro i hi hir
    rw [pivotTab_rows_getD t row col eps i hi, if_neg hir]
    split
    · rw [elimRow_getD _ _ _ _ (by rw [hprlen]; exact hcol)
        (by rw [hrEq i hi]; exact hcol), hone, mul_one, sub_self, abs_zero]
      exact h0
    · next h => exact le_of_not_lt h
  · rw [pivotTab_obj]
    split
    · rw [elimRow_getD _ _ _ _ (by rw [hprlen]; exact hcol)
        (lt_of_lt_of_le hcol hobj), hone, mul_one, sub_self, abs_zero]
      exact h0
    · next h => exact le_of_not_lt h

/-- C6 counterexample to the claim as stated: the basis columns do not
stay an identity submatrix up to eps-skipped entries.  Phase 2 on
`minimize -x₁ - x₂` with `A = [[1, 0], [ε, 2ε]]`, `b = [1, 1]`
(`ε = 10⁻¹⁰ = eps`; this is exactly the tableau and all-slack basis that
`solve_lp` hands to Phase 2 on that input) pivots first on `(0, 0)` —
the elimination in row 1 is skipped because its column-0 entry `ε` is
not `> eps` — and then on `(1, 1)`, which scales row 1 by `1/(2ε)`.
After these two pivots the basis is `[0, 1]`, so column `0` is a basis
column owned by row `0`, yet its entry in row `1` is `1/2`, far above
`eps`. -/
theorem c6_counterexample :
    (stepN 2 (1 / 10 ^ 10) 2
        (⟨initRows 2 2 [[1, 0], [1 / 10 ^ 10, 2 / 10 ^ 10]] [1, 1],
          [-1, -1, 0, 0, 0]⟩, [2, 3])).2 = [0, 1] ∧
    ((stepN 2 (1 / 10 ^ 10) 2
        (⟨initRows 2 2 [[1, 0], [1 / 10 ^ 10, 2 / 10 ^ 10]] [1, 1],
          [-1, -1, 0, 0, 0]⟩, [2, 3])).1.rows.getD 1 []).getD 0 0 =
      1 / 2 ∧
    (1 / 10 ^ 10 : ℚ) < |(1 / 2 : ℚ)| := by
  refine ⟨rfl, rfl, by decide⟩

/-- C6 amended witness: the pivot on entry `2` of the single-row tableau
`[[2, 1, 4]]` (objective `[1, 0, 0]`, `eps = 0`) preserves the row
equations and produces an exact unit column. -/
theorem c6_amended_witness :
    (∀ x, satRows (Tab.mk [[2, 1, 4]] [1, 0, 0]).rows x ↔
        satRows (pivotTab (Tab.mk [[2, 1, 4]] [1, 0, 0]) 0 0 0).rows x) ∧
    ((pivotTab (Tab.mk [[2, 1, 4]] [1, 0, 0]) 0 0 0).rows.getD 0
        []).getD 0 0 = 1 ∧
    (∀ i < (Tab.mk [[2, 1, 4]] [1, 0, 0]).rows.length, i ≠ 0 →
      |((pivotTab (Tab.mk [[2, 1, 4]] [1, 0, 0]) 0 0 0).rows.getD i
          []).getD 0 0| ≤ 0) ∧
    |(pivotTab (Tab.mk [[2, 1, 4]] [1, 0, 0]) 0 0 0).obj.getD 0 0| ≤ 0 :=
  c6_pivot_amended (Tab.mk [[2, 1, 4]] [1, 0, 0]) 0 0 0 (le_refl 0)
    (by decide) (by decide) (by decide) (by decide) (by decide)

/-- C7: when the popped node's relaxation is `OPTIMAL`, fully integral
(`_most_fractional` finds nothing) and strictly improves the incumbent,
the loop updates the incumbent to that relaxation's solution/objective,
computes the gap against the *popped node's* bound `nb` (converted back
by `nb / sign`, or `0` when `nb = 0`), and returns immediately with
status `OPTIMAL` whenever that gap is below `gap_tol` (lines 106-118). -/
theorem c7_gap_early_termination (c : List ℚ) (A : List Row) (b : List ℚ)
    (il : List ℕ) (mz : Bool) (eps : ℚ) (mi mn : ℕ) (gt : ℚ) (f : ℕ)
    (tree tree' : List Entry) (best : Option (List ℚ)) (bo : Val)
    (e ti cnt : ℕ) (nb : Val) (cntE : ℕ) (node : Node)
    (ht : tree ≠ []) (he : e < mn)
    (hpop : popMin tree = some ((nb, cntE, node), tree'))
    (hprune : ¬(best.isSome = true ∧
      Val.ble (Val.subQ (Val.scale (if mz then 1 else -1) bo) eps) nb =
        true))
    (hopt : (solveNode c A b node.lower node.upper mz eps mi).status =
      Status.optimal)
    (hskip : ¬(best.isSome = true ∧
      Val.ble (Val.subQ (Val.scale (if mz then 1 else -1) bo) eps)
        (Val.scale (if mz then 1 else -1)
          (solveNode c A b node.lower node.upper mz eps mi).objective) =
        true))
    (hfrac : mostFractional
      (solveNode c A b node.lower node.upper mz eps mi).solution il eps =
        none)
    (himp : Val.blt
      (Val.scale (if mz then 1 else -1)
        (solveNode c A b node.lower node.upper mz eps mi).objective)
      (Val.scale (if mz then 1 else -1) bo) = true)
    (hgap : Val.blt
      (computeGap (solveNode c A b node.lower node.upper mz eps mi).objective
        (if nb ≠ Val.fin 0 then Val.divQ nb (if mz then 1 else -1)
          else Val.fin 0) mz)
      (Val.fin gt) = true) :
    milpLoop c A b il mz eps mi mn gt (f + 1) tree best bo e ti cnt =
      ⟨some (solveNode c A b node.lower node.upper mz eps mi).solution,
        (solveNode c A b node.lower node.upper mz eps mi).objective,
        e + 1,
        ti + (solveNode c A b node.lower node.upper mz eps mi).iterations,
        Status.optimal⟩ := by
  simp only [milpLoop]
  rw [if_neg (by simp [ht, he])]
  rw [hpop]
  simp only [hprune, hopt, hskip, hfrac, himp, hgap, ite_true, ite_false,
    if_neg hprune, if_neg hskip, ne_eq, not_true_eq_false,
    if_false, reduceIte]

/-- Evaluation: popping the single queue entry of the C7 witness state. -/
lemma c7_pop :
    popMin [(Val.fin (-2), 0,
        (⟨Val.fin (-2), [0], [Val.inf], 0⟩ : Node))] =
      some ((Val.fin (-2), 0, ⟨Val.fin (-2), [0], [Val.inf], 0⟩), []) := rfl

/-- Evaluation: the witness node's relaxation (`maximize x, x ≤ 2`) is
optimal. -/
lemma c7_node_optimal :
    (solveNode [1] [[1]] [2] [0] [Val.inf] false (1 / 10 ^ 6) 20).status =
      Status.optimal := rfl

/-- Evaluation: the witness node's relaxation solution `[2]` is
integral. -/
lemma c7_node_integral :
    mostFractional (solveNode [1] [[1]] [2] [0] [Val.inf] false
      (1 / 10 ^ 6) 20).solution [0] (1 / 10 ^ 6) = none := rfl

/-- Evaluation: sign-adjusted strict improvement over an empty incumbent
(`-2 < +inf`). -/
lemma c7_improves :
    Val.blt
      (Val.scale (if false then 1 else -1)
        (solveNode [1] [[1]] [2] [0] [Val.inf] false
          (1 / 10 ^ 6) 20).objective)
      (Val.scale (if false then 1 else -1) Val.ninf) = true := rfl

/-- Evaluation: the gap against the popped bound `-2` (converted back to
`2`) is `0`, below `gap_tol`. -/
lemma c7_gap_small :
    Val.blt
      (computeGap (solveNode [1] [[1]] [2] [0] [Val.inf] false
          (1 / 10 ^ 6) 20).objective
        (if (Val.fin (-2) : Val) ≠ Val.fin 0 then
          Val.divQ (Val.fin (-2)) (if false then 1 else -1)
          else Val.fin 0) false)
      (Val.fin (1 / 10 ^ 6)) = true := rfl

/-- C7 witness: a loop state (maximization, empty incumbent) whose popped
node solves to the integral solution `[2]` with zero gap against the
popped bound; the loop returns it immediately as `OPTIMAL`. -/
theorem c7_witness :
    milpLoop [1] [[1]] [2] [0] false (1 / 10 ^ 6) 20 100 (1 / 10 ^ 6)
        8 [(Val.fin (-2), 0, ⟨Val.fin (-2), [0], [Val.inf], 0⟩)] none
        Val.ninf 0 0 1 =
      ⟨some (solveNode [1] [[1]] [2] [0] [Val.inf] false
          (1 / 10 ^ 6) 20).solution,
        (solveNode [1] [[1]] [2] [0] [Val.inf] false
          (1 / 10 ^ 6) 20).objective,
        1,
        (solveNode [1] [[1]] [2] [0] [Val.inf] false
          (1 / 10 ^ 6) 20).iterations,
        Status.optimal⟩ := by
  have h := c7_gap_early_termination [1] [[1]] [2] [0] false (1 / 10 ^ 6)
    20 100 (1 / 10 ^ 6) 7
    [(Val.fin (-2), 0, ⟨Val.fin (-2), [0], [Val.inf], 0⟩)] [] none
    Val.ninf 0 0 1 (Val.fin (-2)) 0 ⟨Val.fin (-2), [0], [Val.inf], 0⟩
    (by simp) (by decide) c7_pop (by simp) c7_node_optimal (by simp)
    c7_node_integral c7_improves c7_gap_small
  simpa using h

/-- Evaluation: the root relaxation of the infeasible system
`x ≥ 1 ∧ x ≤ 0` is reported `INFEASIBLE`. -/
lemma c5_root_infeasible :
    (solveNode [1] [[-1], [1]] [-1, 0] (List.replicate 1 0)
        (List.replicate 1 Val.inf) true (1 / 10 ^ 6) 10).status =
      Status.infeasible := rfl

/-- C5 witness: conjuncts of `c5_terminal_statuses` applied at concrete
inputs — the infeasible root propagates; a loop state with an empty
queue and incumbent `[3]` ends `OPTIMAL`; an exhausted node budget with a
non-empty queue and incumbent `[3]` ends `FEASIBLE`; and a loop returning
no solution is `INFEASIBLE`. -/
theorem c5_witness :
    solve_milp [1] [[-1], [1]] [-1, 0] [0] true (1 / 10 ^ 6) 10 100
        (1 / 10 ^ 6) =
      ⟨none, Val.inf, 0,
        (solveNode [1] [[-1], [1]] [-1, 0] (List.replicate 1 0)
          (List.replicate 1 Val.inf) true (1 / 10 ^ 6) 10).iterations,
        Status.infeasible⟩ ∧
    milpLoop [1] [[1]] [2] [0] true (1 / 10 ^ 6) 10 100 (1 / 10 ^ 6)
        5 [] (some [3]) (Val.fin 3) 2 7 4 =
      ⟨some [3], Val.fin 3, 2, 7, Status.optimal⟩ ∧
    milpLoop [1] [[1]] [2] [0] true (1 / 10 ^ 6) 10 100 (1 / 10 ^ 6)
        5 [(Val.fin 3, 1, ⟨Val.fin 3, [0], [Val.inf], 1⟩)] (some [3])
        (Val.fin 3) 100 7 4 =
      ⟨some [3], Val.fin 3, 100, 7, Status.feasible⟩ ∧
    (milpLoop [1] [[1]] [2] [0] true (1 / 10 ^ 6) 10 100 (1 / 10 ^ 6)
        5 [] none Val.inf 0 0 1).status = Status.infeasible := by
  refine ⟨?_, ?_, ?_, ?_⟩
  · have h := c5_terminal_statuses.1 [1] [[-1], [1]] [-1, 0] [0] true
      (1 / 10 ^ 6) 10 100 (1 / 10 ^ 6) c5_root_infeasible
    simpa using h
  · exact c5_terminal_statuses.2.2.1 [1] [[1]] [2] [0] true (1 / 10 ^ 6)
      10 100 (1 / 10 ^ 6) 5 [3] (Val.fin 3) 2 7 4
  · exact c5_terminal_statuses.2.2.2.1 [1] [[1]] [2] [0] true (1 / 10 ^ 6)
      10 100 (1 / 10 ^ 6) 5 [(Val.fin 3, 1, ⟨Val.fin 3, [0], [Val.inf], 1⟩)]
      [3] (Val.fin 3) 100 7 4 (by simp) (by decide)
  · exact c5_terminal_statuses.2.2.2.2 [1] [[1]] [2] [0] true (1 / 10 ^ 6)
      10 100 (1 / 10 ^ 6) 5 [] none Val.inf 0 0 1 rfl

end Solvor
